import Mathlib

/-!
Shallow embedding of the adaptive note-selection core of `pitcher`
(src/main.rs): scale construction (`from_scale` plus the octave append),
per-note statistics (`Stat`, `Stats`), weighted random selection
(`choose_biased`), and the streak counter updates of the main loop.

Numeric conventions: the Rust `f32` quantities (rates, weights, the drawn
random number) are embedded as exact rationals `ℚ`; the `u32` counters as
`Nat`; the signed streak as `Int`. Operations that panic in Rust (list
indexing out of range, the exhausted selection walk) return `none`.
The random draw `rng.gen_range(0.0..weight_range)` is embedded by passing
the drawn number as an explicit parameter constrained to
`0 ≤ r < weight_range`.
-/

namespace Pitcher

/-- `from_scale` (src/main.rs lines 27-37): walk `i = 0..12` with a mask
starting at `1 <<< 11` and shifted right each step, pushing `i` whenever
`bits &&& mask ≠ 0`. So iteration `i` tests bit `11 - i` of `bits`. -/
def from_scale (bits : Nat) : List Int :=
  ((List.range 12).filter fun i => bits &&& ((1 <<< 11) >>> i) != 0).map
    fun i : Nat => (i : Int)

/-- `buildScaleSet`: `from_scale` followed by the unconditional
`notes.push(12)` of `main` (src/main.rs lines 166-167). -/
def buildScaleSet (bits : Nat) : List Int :=
  from_scale bits ++ [12]

/-- Number of set bits of a natural number (used to state the spec's
`popcount(mask)`). -/
def popcount : Nat → Nat
  | 0 => 0
  | n + 1 => (n + 1) % 2 + popcount ((n + 1) / 2)
decreasing_by exact Nat.div_lt_self (Nat.succ_pos n) (by omega)

/-- `Stat` (src/main.rs lines 92-96): per-note win/loss counters. -/
structure Stat where
  wins : Nat
  losses : Nat
deriving DecidableEq, Inhabited

/-- `Stat::total` (src/main.rs lines 99-101). -/
def Stat.total (s : Stat) : Nat :=
  s.wins + s.losses

/-- `Stat::rate` (src/main.rs lines 103-110): `wins / total`, defined as 0
when `total = 0`. -/
def Stat.rate (s : Stat) : ℚ :=
  if s.total = 0 then 0 else (s.wins : ℚ) / (s.total : ℚ)

/-- `Stat::weight` (src/main.rs lines 112-114): `1.25 - rate`. -/
def Stat.weight (s : Stat) : ℚ :=
  5 / 4 - s.rate

/-- `Stats::win` (src/main.rs lines 133-135): `self.0[index].wins += 1`.
Rust indexing panics when `index` is out of range, embedded as `none`. -/
def Stats.win (stats : List Stat) (i : Nat) : Option (List Stat) :=
  if h : i < stats.length then
    some (stats.set i ⟨(stats.get ⟨i, h⟩).wins + 1, (stats.get ⟨i, h⟩).losses⟩)
  else none

/-- `Stats::lose` (src/main.rs lines 137-139): `self.0[index].losses += 1`,
panicking (`none`) when `index` is out of range. -/
def Stats.lose (stats : List Stat) (i : Nat) : Option (List Stat) :=
  if h : i < stats.length then
    some (stats.set i ⟨(stats.get ⟨i, h⟩).wins, (stats.get ⟨i, h⟩).losses + 1⟩)
  else none

/-- `Stats::weights` (src/main.rs lines 141-143). -/
def Stats.weights (stats : List Stat) : List ℚ :=
  stats.map Stat.weight

/-- The loop body of `choose_biased` (src/main.rs lines 83-89): walk the
zipped `(index, item), weight` pairs, returning the current pair's
`(index, item)` as soon as `num < weight`, otherwise subtracting the weight
and moving on; an exhausted walk reaches `panic!()`, embedded as `none`. -/
def choose_biased_go {α : Type} : List ((Nat × α) × ℚ) → ℚ → Option (Nat × α)
  | [], _ => none
  | (p, w) :: rest, num => if num < w then some p else choose_biased_go rest (num - w)

/-- `weight_range` of `choose_biased` (src/main.rs line 81): the sum of all
weights; the random draw is taken from `[0, weight_range)`. -/
def weight_range (ws : List ℚ) : ℚ :=
  ws.sum

/-- `choose_biased` (src/main.rs lines 80-90) with the drawn random number
`num` passed explicitly: zip `items.iter().enumerate()` with `weights`
(truncating to the shorter) and run the subtraction walk. -/
def choose_biased {α : Type} (items : List α) (ws : List ℚ) (num : ℚ) :
    Option (Nat × α) :=
  choose_biased_go (items.enum.zip ws) num

/-- Cumulative weight through index `i`: `w 0 + ... + w i`. -/
def cumulativeWeight (ws : List ℚ) (i : Nat) : ℚ :=
  (ws.take (i + 1)).sum

/-- Spec-side characterisation, following the spec's words: `i` is the first
index such that `r < cumulativeWeightThroughI` (the standard
cumulative-distribution inversion). -/
def isFirstCDFIndex (ws : List ℚ) (r : ℚ) (i : Nat) : Prop :=
  i < ws.length ∧ r < cumulativeWeight ws i ∧ ∀ j < i, cumulativeWeight ws j ≤ r

instance (ws : List ℚ) (r : ℚ) (i : Nat) : Decidable (isFirstCDFIndex ws r i) := by
  unfold isFirstCDFIndex
  infer_instance

/-- The streak update on a win (src/main.rs line 204):
`streak = streak.max(0) + 1`. -/
def streakWin (streak : Int) : Int :=
  max streak 0 + 1

/-- The streak update on a loss (src/main.rs line 218):
`streak = streak.min(1) - 1`. -/
def streakLose (streak : Int) : Int :=
  min streak 1 - 1

/-- The session state of `main`: the immutable note list, the per-note
statistics and the streak counter. -/
structure Session where
  notes : List Int
  stats : List Stat
  streak : Int
deriving DecidableEq

/-- The selection step of the game loop (src/main.rs line 181):
`choose_biased(&mut rng, &notes, &stats.weights())`. Both borrows are
immutable, so the session state passes through unchanged. -/
def selectNote (s : Session) (r : ℚ) : Option ((Nat × Int) × Session) :=
  (choose_biased s.notes (Stats.weights s.stats) r).map fun p => (p, s)

/-- The outcome-recording step of the game loop (src/main.rs lines 202-224):
on a correct guess `stats.win(i)` and `streak = streak.max(0) + 1`, otherwise
`stats.lose(i)` and `streak = streak.min(1) - 1`. -/
def recordOutcome (s : Session) (i : Nat) (correct : Bool) : Option Session :=
  if correct then
    (Stats.win s.stats i).map fun st =>
      { notes := s.notes, stats := st, streak := streakWin s.streak }
  else
    (Stats.lose s.stats i).map fun st =>
      { notes := s.notes, stats := st, streak := streakLose s.streak }

/-- The subtraction walk, run over items enumerated from `k` zipped with the
weights: under positive weights and a draw below the total weight, it returns
`k + i` and the `i`-th item, where `i` is the first index whose cumulative
weight exceeds the draw. -/
theorem choose_biased_go_spec {α : Type} (ws : List ℚ) :
    ∀ (items : List α) (k : Nat) (r : ℚ),
      ws.length ≤ items.length → (∀ w ∈ ws, 0 < w) → 0 ≤ r → r < ws.sum →
      ∃ i, ∃ h : i < items.length, i < ws.length ∧
        choose_biased_go ((items.enumFrom k).zip ws) r = some (k + i, items.get ⟨i, h⟩) ∧
        r < (ws.take (i + 1)).sum ∧ ∀ j < i, (ws.take (j + 1)).sum ≤ r := by
  induction ws with
  | nil =>
    intro items k r _ _ h0 hr
    simp only [List.sum_nil] at hr
    exact absurd hr (not_lt.mpr h0)
  | cons w ws ih =>
    intro items k r hlen hpos h0 hr
    match items with
    | [] => simp at hlen
    | x :: xs =>
      have hstep : choose_biased_go (((x :: xs).enumFrom k).zip (w :: ws)) r
          = if r < w then some (k, x)
            else choose_biased_go ((xs.enumFrom (k + 1)).zip ws) (r - w) := rfl
      by_cases hcase : r < w
      · refine ⟨0, Nat.succ_pos _, Nat.succ_pos _, ?_, ?_, ?_⟩
        · rw [hstep, if_pos hcase]
          simp
        · simpa [List.take_succ_cons] using hcase
        · intro j hj
          exact absurd hj (Nat.not_lt_zero j)
      · have hw : 0 < w := hpos w (List.mem_cons_self w ws)
        have hwr : w ≤ r := not_lt.mp hcase
        have h0' : 0 ≤ r - w := by linarith
        have hr' : r - w < ws.sum := by
          simp only [List.sum_cons] at hr
          linarith
        have hlen' : ws.length ≤ xs.length := by simpa using hlen
        have hpos' : ∀ w' ∈ ws, 0 < w' := fun w' hmem => hpos w' (List.mem_cons_of_mem _ hmem)
        obtain ⟨i, h, hiw, hgo, hcum, hleast⟩ := ih xs (k + 1) (r - w) hlen' hpos' h0' hr'
        refine ⟨i + 1, Nat.succ_lt_succ h, Nat.succ_lt_succ hiw, ?_, ?_, ?_⟩
        · have hk : k + 1 + i = k + (i + 1) := by omega
          rw [hstep, if_neg hcase, hgo, hk]
          rfl
        · simp only [List.take_succ_cons, List.sum_cons]
          linarith
        · intro j hj
          match j with
          | 0 =>
            simpa [List.take_succ_cons] using hwr
          | j + 1 =>
            have hjle := hleast j (by omega)
            simp only [List.take_succ_cons, List.sum_cons]
            linarith

/-- The subtraction walk returns `none` (the `panic!()` branch of
`choose_biased`) when every cumulative weight over the zipped pairs is at
most the draw. -/
theorem choose_biased_go_none {α : Type} (ws : List ℚ) :
    ∀ (items : List α) (k : Nat) (r : ℚ),
      (∀ i < min ws.length items.length, (ws.take (i + 1)).sum ≤ r) →
      choose_biased_go ((items.enumFrom k).zip ws) r = none := by
  induction ws with
  | nil =>
    intro items k r _
    simp [choose_biased_go]
  | cons w ws ih =>
    intro items k r hall
    match items with
    | [] => simp [choose_biased_go, List.enumFrom]
    | x :: xs =>
      have hstep : choose_biased_go (((x :: xs).enumFrom k).zip (w :: ws)) r
          = if r < w then some (k, x)
            else choose_biased_go ((xs.enumFrom (k + 1)).zip ws) (r - w) := rfl
      have hw : w ≤ r := by
        have := hall 0 (by simp)
        simpa [List.take_succ_cons] using this
      rw [hstep, if_neg (not_lt.mpr hw)]
      apply ih xs (k + 1) (r - w)
      intro i hi
      have hcum := hall (i + 1) (by simp at hi ⊢; omega)
      simp only [List.take_succ_cons, List.sum_cons] at hcum
      linarith

/-- C1: for every non-empty sequence of strictly positive weights aligned with
an items sequence of the same length, and every drawn `r` in
`[0, weight_range)`, `choose_biased` returns `some (i, items[i])` where `i` is
the first index such that `r` is below the cumulative weight through `i` (the
standard cumulative-distribution inversion), and that index is in bounds. -/
theorem choose_biased_first_cdf_index (items : List Int) (ws : List ℚ) (r : ℚ)
    (hlen : items.length = ws.length) (hne : ws ≠ []) (hpos : ∀ w ∈ ws, 0 < w)
    (h0 : 0 ≤ r) (hr : r < weight_range ws) :
    ∃ i, ∃ h : i < items.length,
      choose_biased items ws r = some (i, items.get ⟨i, h⟩) ∧ isFirstCDFIndex ws r i := by
  obtain ⟨i, h, hiw, hgo, hcum, hleast⟩ :=
    choose_biased_go_spec ws items 0 r (le_of_eq hlen.symm) hpos h0 hr
  exact ⟨i, h, by simpa [choose_biased, List.enum] using hgo, hiw, hcum, hleast⟩

/-- Witness for C1 at items `[10, 20]`, weights `[1, 2]`, draw `3/2`: the
selected index is the first whose cumulative weight exceeds the draw. -/
theorem choose_biased_first_cdf_index_witness :
    ∃ i, ∃ h : i < ([10, 20] : List Int).length,
      choose_biased [10, 20] ([1, 2] : List ℚ) (3 / 2) =
        some (i, ([10, 20] : List Int).get ⟨i, h⟩) ∧
      isFirstCDFIndex [1, 2] (3 / 2) i :=
  choose_biased_first_cdf_index [10, 20] [1, 2] (3 / 2) rfl (by simp)
    (by norm_num) (by norm_num) (by norm_num [weight_range])

/-- C6: if every cumulative weight over the zipped walk stays at or below the
drawn number (the floating-point drift edge case), `choose_biased` hits its
final `panic!()` (`none` in this embedding) instead of returning an index;
and with positive weights and a draw genuinely inside `[0, weight_range)`
that fatal branch is unreachable. -/
theorem choose_biased_drift_fatal (items : List Int) (ws : List ℚ) (r rdrift : ℚ)
    (hlen : ws.length ≤ items.length) (hpos : ∀ w ∈ ws, 0 < w)
    (h0 : 0 ≤ r) (hr : r < weight_range ws)
    (hdrift : ∀ i < min ws.length items.length, cumulativeWeight ws i ≤ rdrift) :
    choose_biased items ws rdrift = none ∧ choose_biased items ws r ≠ none := by
  constructor
  · have hnone := choose_biased_go_none ws items 0 rdrift hdrift
    simpa [choose_biased, List.enum] using hnone
  · obtain ⟨i, h, hiw, hgo, -, -⟩ := choose_biased_go_spec ws items 0 r hlen hpos h0 hr
    intro hnone
    rw [show choose_biased items ws r
        = choose_biased_go ((items.enumFrom 0).zip ws) r from rfl, hgo] at hnone
    exact Option.noConfusion hnone

/-- Witness for C6 at items `[5, 6]`, weights `[1, 1]`: the drifted draw `3`
reaches the fatal branch, the in-range draw `1/2` cannot. -/
theorem choose_biased_drift_fatal_witness :
    choose_biased ([5, 6] : List Int) ([1, 1] : List ℚ) 3 = none ∧
      choose_biased ([5, 6] : List Int) ([1, 1] : List ℚ) (1 / 2) ≠ none :=
  choose_biased_drift_fatal [5, 6] [1, 1] (1 / 2) 3 (by norm_num) (by norm_num)
    (by norm_num) (by norm_num [weight_range])
    (by
      intro i hi
      simp only [List.length_cons, List.length_nil, min_self] at hi
      interval_cases i <;> norm_num [cumulativeWeight])

/-- C7: contract violations abort fatally without producing a value: with an
empty weight sequence the draw interval `[0, weight_range)` is empty and the
exhausted walk reaches `panic!()` (`none`), and `Stats::win` / `Stats::lose`
with an out-of-range index panic (`none`) instead of mutating any counter. -/
theorem contract_violations_fatal (items : List Int) (r : ℚ) (stats : List Stat) (i : Nat)
    (hi : stats.length ≤ i) :
    choose_biased items ([] : List ℚ) r = none ∧ weight_range ([] : List ℚ) = 0 ∧
      Stats.win stats i = none ∧ Stats.lose stats i = none := by
  refine ⟨?_, rfl, ?_, ?_⟩
  · show choose_biased_go (items.enum.zip []) r = none
    rw [List.zip_nil_right]
    rfl
  · simp only [Stats.win]
    rw [dif_neg (not_lt.mpr hi)]
  · simp only [Stats.lose]
    rw [dif_neg (not_lt.mpr hi)]

/-- Witness for C7 at items `[0]`, draw `0`, an empty stats collection and
index `0`. -/
theorem contract_violations_fatal_witness :
    choose_biased ([0] : List Int) ([] : List ℚ) 0 = none ∧ weight_range ([] : List ℚ) = 0 ∧
      Stats.win [] 0 = none ∧ Stats.lose [] 0 = none :=
  contract_violations_fatal [0] 0 [] 0 (Nat.le_refl 0)

/-- C10: with a non-empty weights sequence strictly shorter than the items
sequence (all weights positive, draw in `[0, weight_range)`), `choose_biased`
does not panic on the length mismatch: the zipped walk truncates to the
shorter sequence, so the returned index lies in `[0, weights.length)` and
only the first `weights.length` items are selectable. -/
theorem choose_biased_truncated_spec (items : List Int) (ws : List ℚ) (r : ℚ)
    (hne : ws ≠ []) (hlt : ws.length < items.length) (hpos : ∀ w ∈ ws, 0 < w)
    (h0 : 0 ≤ r) (hr : r < weight_range ws) :
    ∃ i, ∃ h : i < items.length,
      choose_biased items ws r = some (i, items.get ⟨i, h⟩) ∧ i < ws.length := by
  obtain ⟨i, h, hiw, hgo, -, -⟩ :=
    choose_biased_go_spec ws items 0 r (le_of_lt hlt) hpos h0 hr
  exact ⟨i, h, by simpa [choose_biased, List.enum] using hgo, hiw⟩

/-- Witness for C10 at items `[1, 2, 3]`, weights `[1, 1]`, draw `3/2`: the
returned index is 1, inside the truncated range. -/
theorem choose_biased_truncated_spec_witness :
    ∃ i, ∃ h : i < ([1, 2, 3] : List Int).length,
      choose_biased [1, 2, 3] ([1, 1] : List ℚ) (3 / 2) =
        some (i, ([1, 2, 3] : List Int).get ⟨i, h⟩) ∧ i < ([1, 1] : List ℚ).length :=
  choose_biased_truncated_spec [1, 2, 3] [1, 1] (3 / 2) (by simp) (by norm_num)
    (by norm_num) (by norm_num) (by norm_num [weight_range])

theorem Stat.rate_nonneg (s : Stat) : 0 ≤ s.rate := by
  rcases eq_or_ne s.total 0 with h | h
  · simp [Stat.rate, h]
  · rw [Stat.rate, if_neg h]
    positivity

theorem Stat.rate_le_one (s : Stat) : s.rate ≤ 1 := by
  rcases eq_or_ne s.total 0 with h | h
  · simp [Stat.rate, h]
  · have h0 : (0 : ℚ) < (s.total : ℚ) := by exact_mod_cast Nat.pos_of_ne_zero h
    rw [Stat.rate, if_neg h, div_le_one h0]
    exact_mod_cast Nat.le_add_right s.wins s.losses

/-- C3 counterexample: a Stat with one win and no losses has rate 1, so its
weight is exactly 1/4, not strictly greater than 1/4 as claimed. -/
theorem stat_weight_reaches_quarter :
    Stat.weight ⟨1, 0⟩ = 1 / 4 ∧ ¬ (1 / 4 < Stat.weight ⟨1, 0⟩) := by
  norm_num [Stat.weight, Stat.rate, Stat.total]

/-- C3 (amended): for every Stat, whatever its wins and losses counters, the
derived weight lies in the closed interval [1/4, 5/4]; in particular it is
strictly positive and never zero, so no note's selection weight vanishes
however lopsided its history. -/
theorem stat_weight_bounds (s : Stat) :
    1 / 4 ≤ s.weight ∧ s.weight ≤ 5 / 4 ∧ s.weight ≠ 0 := by
  have h1 := Stat.rate_nonneg s
  have h2 := Stat.rate_le_one s
  unfold Stat.weight
  refine ⟨by linarith, by linarith, ?_⟩
  intro hz
  linarith

/-- C4 counterexample: after a positive streak of 2 a loss sets the streak to
`2.min(1) - 1 = 0`, not to -1 as the claim states for every non-negative
streak. -/
theorem streak_lose_positive_not_reset :
    streakLose 2 = 0 ∧ streakLose 2 ≠ -1 := by decide

/-- C4 (amended): a win following any non-positive streak resets it to 1 and
otherwise increments it by 1; a loss following a positive streak sets it to 0,
and otherwise (streak at most 0, so also exactly 0) decrements it by 1. -/
theorem streak_update_rule (s : Int) :
    streakWin s = (if s ≤ 0 then 1 else s + 1) ∧
      streakLose s = (if 1 ≤ s then 0 else s - 1) := by
  unfold streakWin streakLose
  rw [Int.max_def, Int.min_def]
  constructor
  · split <;> omega
  · split <;> split <;> omega

/-- C5: weight is a strictly decreasing function of rate; a Stat of rate 0
(including the zero-initialized Stat, whose total is 0) has weight exactly
5/4, and a Stat of rate 1 has weight exactly 1/4. -/
theorem stat_weight_strict_decreasing (s t : Stat) (h : s.rate < t.rate) :
    t.weight < s.weight ∧ (s.rate = 0 → s.weight = 5 / 4) ∧
      (t.rate = 1 → t.weight = 1 / 4) ∧
      Stat.rate ⟨0, 0⟩ = 0 ∧ Stat.weight ⟨0, 0⟩ = 5 / 4 := by
  refine ⟨by unfold Stat.weight; linarith, ?_, ?_, ?_, ?_⟩
  · intro h0
    unfold Stat.weight
    rw [h0]
    norm_num
  · intro h1
    unfold Stat.weight
    rw [h1]
    norm_num
  · norm_num [Stat.rate, Stat.total]
  · norm_num [Stat.weight, Stat.rate, Stat.total]

/-- Witness for C5 at the zero-initialized Stat (rate 0) and a Stat with one
win and no losses (rate 1). -/
theorem stat_weight_strict_decreasing_witness :
    Stat.weight ⟨1, 0⟩ < Stat.weight ⟨0, 0⟩ ∧
      (Stat.rate ⟨0, 0⟩ = 0 → Stat.weight ⟨0, 0⟩ = 5 / 4) ∧
      (Stat.rate ⟨1, 0⟩ = 1 → Stat.weight ⟨1, 0⟩ = 1 / 4) ∧
      Stat.rate ⟨0, 0⟩ = 0 ∧ Stat.weight ⟨0, 0⟩ = 5 / 4 :=
  stat_weight_strict_decreasing ⟨0, 0⟩ ⟨1, 0⟩ (by norm_num [Stat.rate, Stat.total])

/-- C8: for every in-range index `i`, `Stats::win` increments `stats[i].wins`
by exactly 1 and leaves `stats[i].losses` and every other index unchanged;
`Stats::lose` increments `stats[i].losses` by exactly 1 and leaves
`stats[i].wins` and every other index unchanged. -/
theorem record_outcome_updates (stats : List Stat) (i : Nat) (hi : i < stats.length) :
    ∃ s₁ s₂, Stats.win stats i = some s₁ ∧ Stats.lose stats i = some s₂ ∧
      s₁.length = stats.length ∧ s₂.length = stats.length ∧
      s₁[i]? = (stats[i]?).map (fun st => ⟨st.wins + 1, st.losses⟩) ∧
      s₂[i]? = (stats[i]?).map (fun st => ⟨st.wins, st.losses + 1⟩) ∧
      ∀ j, j ≠ i → s₁[j]? = stats[j]? ∧ s₂[j]? = stats[j]? := by
  refine ⟨stats.set i ⟨(stats.get ⟨i, hi⟩).wins + 1, (stats.get ⟨i, hi⟩).losses⟩,
    stats.set i ⟨(stats.get ⟨i, hi⟩).wins, (stats.get ⟨i, hi⟩).losses + 1⟩,
    ?_, ?_, ?_, ?_, ?_, ?_, ?_⟩
  · simp only [Stats.win]
    rw [dif_pos hi]
  · simp only [Stats.lose]
    rw [dif_pos hi]
  · simp
  · simp
  · rw [List.getElem?_set_self hi, List.getElem?_eq_getElem hi]
    simp [List.get_eq_getElem]
  · rw [List.getElem?_set_self hi, List.getElem?_eq_getElem hi]
    simp [List.get_eq_getElem]
  · intro j hj
    constructor <;> rw [List.getElem?_set_ne (Ne.symm hj)]

/-- Witness for C8 at the collection `[⟨0, 0⟩, ⟨2, 3⟩]` and index 1. -/
theorem record_outcome_updates_witness :
    ∃ s₁ s₂, Stats.win [⟨0, 0⟩, ⟨2, 3⟩] 1 = some s₁ ∧
      Stats.lose [⟨0, 0⟩, ⟨2, 3⟩] 1 = some s₂ ∧
      s₁.length = ([⟨0, 0⟩, ⟨2, 3⟩] : List Stat).length ∧
      s₂.length = ([⟨0, 0⟩, ⟨2, 3⟩] : List Stat).length ∧
      s₁[1]? = (([⟨0, 0⟩, ⟨2, 3⟩] : List Stat)[1]?).map (fun st => ⟨st.wins + 1, st.losses⟩) ∧
      s₂[1]? = (([⟨0, 0⟩, ⟨2, 3⟩] : List Stat)[1]?).map (fun st => ⟨st.wins, st.losses + 1⟩) ∧
      ∀ j, j ≠ 1 → s₁[j]? = ([⟨0, 0⟩, ⟨2, 3⟩] : List Stat)[j]? ∧
        s₂[j]? = ([⟨0, 0⟩, ⟨2, 3⟩] : List Stat)[j]? :=
  record_outcome_updates [⟨0, 0⟩, ⟨2, 3⟩] 1 (by norm_num)

/-- C9: the selection step (`choose_biased` over `Stats::weights`, both taken
through immutable borrows) leaves the session's statistics (and notes)
unchanged, and the outcome-recording step leaves the notes sequence
unchanged. -/
theorem select_and_record_frame (s : Session) (r : ℚ) (p : Nat × Int) (s' : Session)
    (i : Nat) (c : Bool) (s'' : Session)
    (h1 : selectNote s r = some (p, s')) (h2 : recordOutcome s i c = some s'') :
    s'.stats = s.stats ∧ s'.notes = s.notes ∧ s''.notes = s.notes := by
  have key : s' = s := by
    unfold selectNote at h1
    rcases Option.map_eq_some'.mp h1 with ⟨q, -, heq⟩
    cases heq
    rfl
  have notes'' : s''.notes = s.notes := by
    unfold recordOutcome at h2
    cases c with
    | true =>
      rw [if_pos rfl] at h2
      rcases Option.map_eq_some'.mp h2 with ⟨st, -, heq⟩
      rw [← heq]
    | false =>
      rw [if_neg Bool.false_ne_true] at h2
      rcases Option.map_eq_some'.mp h2 with ⟨st, -, heq⟩
      rw [← heq]
  exact ⟨by rw [key], by rw [key], notes''⟩

/-- Witness for C9 at a one-note session: selecting with draw 1/2 returns
index 0 and passes the state through; recording a win updates only the
statistics and streak, not the notes. -/
theorem select_and_record_frame_witness :
    (Session.mk [12] [⟨0, 0⟩] 0).stats = (Session.mk [12] [⟨0, 0⟩] 0).stats ∧
      (Session.mk [12] [⟨0, 0⟩] 0).notes = (Session.mk [12] [⟨0, 0⟩] 0).notes ∧
      (Session.mk [12] [⟨1, 0⟩] 1).notes = (Session.mk [12] [⟨0, 0⟩] 0).notes :=
  select_and_record_frame (Session.mk [12] [⟨0, 0⟩] 0) (1 / 2) (0, 12)
    (Session.mk [12] [⟨0, 0⟩] 0) 0 true (Session.mk [12] [⟨1, 0⟩] 1)
    (by norm_num [selectNote, choose_biased, choose_biased_go, Stats.weights,
      Stat.weight, Stat.rate, Stat.total, List.enum, List.enumFrom])
    (by norm_num [recordOutcome, Stats.win, streakWin])

theorem popcount_div2 (n : Nat) : popcount n = n % 2 + popcount (n / 2) := by
  match n with
  | 0 => simp [popcount]
  | n + 1 => simp [popcount]

theorem popcount_eq_countP : ∀ (k n : Nat), n < 2 ^ k →
    popcount n = (List.range k).countP fun i => n.testBit i := by
  intro k
  induction k with
  | zero =>
    intro n hn
    interval_cases n
    simp [popcount]
  | succ k ih =>
    intro n hn
    have hdiv : n / 2 < 2 ^ k := by
      have h2 : (2 : Nat) ^ (k + 1) = 2 ^ k * 2 := by ring
      omega
    rw [popcount_div2, ih (n / 2) hdiv, List.range_succ_eq_map, List.countP_cons,
      List.countP_map]
    have hshift : List.countP ((fun i => n.testBit i) ∘ Nat.succ) (List.range k)
        = List.countP (fun i => (n / 2).testBit i) (List.range k) := by
      apply List.countP_congr
      intro i _
      simp [Function.comp, Nat.testBit_add_one]
    rw [hshift]
    rcases Nat.mod_two_eq_zero_or_one n with h | h <;>
      simp [Nat.testBit_zero, h] <;> omega

/-- The filter predicate of `from_scale` at iteration `i < 12` tests bit
`11 - i` of the input mask. -/
theorem from_scale_pred (bits i : Nat) (hi : i < 12) :
    (bits &&& ((1 <<< 11) >>> i) != 0) = bits.testBit (11 - i) := by
  have hmask : (1 <<< 11) >>> i = 2 ^ (11 - i) := by
    rw [Nat.shiftLeft_eq, Nat.shiftRight_eq_div_pow, one_mul]
    exact Nat.pow_div (by omega) (by norm_num)
  rw [hmask, Nat.and_two_pow]
  cases h : bits.testBit (11 - i) <;> simp [h]

theorem from_scale_length (bits : Nat) (hb : bits < 2 ^ 12) :
    (from_scale bits).length = popcount bits := by
  rw [from_scale, List.length_map, ← List.countP_eq_length_filter,
    popcount_eq_countP 12 bits hb]
  have hcong : List.countP (fun i => bits &&& ((1 <<< 11) >>> i) != 0) (List.range 12)
      = List.countP (fun i => bits.testBit (11 - i)) (List.range 12) := by
    apply List.countP_congr
    intro i hi
    rw [List.mem_range] at hi
    rw [from_scale_pred bits i hi]
  rw [hcong]
  have hrev : List.countP (fun i => bits.testBit (11 - i)) (List.range 12)
      = List.countP (fun i => bits.testBit i) ((List.range 12).map fun i => 11 - i) := by
    rw [List.countP_map]
    rfl
  rw [hrev, show (List.range 12).map (fun i => 11 - i) = (List.range 12).reverse by decide]
  exact List.Perm.countP_eq _ (List.reverse_perm _)

theorem from_scale_mem (bits : Nat) (d : Nat) :
    ((d : Int) ∈ from_scale bits) ↔ (d < 12 ∧ bits.testBit (11 - d) = true) := by
  rw [from_scale]
  simp only [List.mem_map, List.mem_filter, List.mem_range]
  constructor
  · rintro ⟨i, ⟨hi, hp⟩, hcast⟩
    have hid : i = d := by exact_mod_cast hcast
    subst hid
    rw [from_scale_pred bits i hi] at hp
    exact ⟨hi, hp⟩
  · rintro ⟨hd, ht⟩
    refine ⟨d, ⟨hd, ?_⟩, rfl⟩
    rw [from_scale_pred bits d hd]
    exact ht

theorem from_scale_sorted (bits : Nat) : List.Pairwise (· < ·) (from_scale bits) := by
  rw [from_scale]
  refine List.Pairwise.map _ (fun a b hab => ?_) ((List.pairwise_lt_range 12).filter _)
  exact_mod_cast hab

/-- C2: for every 12-bit mask, `buildScaleSet` (`from_scale` followed by the
unconditional append of the octave note) returns a sequence of length
`popcount(mask) + 1` whose last element is always 12; its preceding elements
are exactly the degrees `d < 12` whose bit `11 - d` is set (bit 11, the most
significant of the 12, is degree 0, down to bit 0 as degree 11), in strictly
ascending order; a zero mask yields `[12]`. -/
theorem buildScaleSet_spec (bits : Nat) (hb : bits < 2 ^ 12) :
    (buildScaleSet bits).length = popcount bits + 1 ∧
    (buildScaleSet bits).getLast? = some 12 ∧
    (∀ d : Nat, ((d : Int) ∈ from_scale bits ↔ d < 12 ∧ bits.testBit (11 - d) = true)) ∧
    List.Pairwise (· < ·) (from_scale bits) ∧
    buildScaleSet 0 = [12] := by
  refine ⟨?_, ?_, from_scale_mem bits, from_scale_sorted bits, by decide⟩
  · rw [buildScaleSet, List.length_append, from_scale_length bits hb]
    rfl
  · rw [buildScaleSet, List.getLast?_concat]

/-- Witness for C2 at the spec's concrete mask `0b101011010101` (2773): seven
set bits, scale degrees {0, 2, 4, 5, 7, 9, 11}, plus the appended octave. -/
theorem buildScaleSet_spec_witness :
    (buildScaleSet 0b101011010101).length = popcount 0b101011010101 + 1 ∧
    (buildScaleSet 0b101011010101).getLast? = some 12 ∧
    (∀ d : Nat, ((d : Int) ∈ from_scale 0b101011010101 ↔
      d < 12 ∧ Nat.testBit 0b101011010101 (11 - d) = true)) ∧
    List.Pairwise (· < ·) (from_scale 0b101011010101) ∧
    buildScaleSet 0 = [12] :=
  buildScaleSet_spec 0b101011010101 (by norm_num)

/-- Sanity check of the embedding on the spec's concrete scenario: mask
`0b101011010101` yields the scale degrees {0, 2, 4, 5, 7, 9, 11}. -/
theorem from_scale_concrete : from_scale 0b101011010101 = [0, 2, 4, 5, 7, 9, 11] := by
  decide

/-- Sanity check: a concrete run of the subtraction walk. -/
theorem choose_biased_concrete :
    choose_biased ([10, 20] : List Int) ([1, 2] : List ℚ) (3 / 2) = some (1, 20) := by
  norm_num [choose_biased, choose_biased_go, List.enum, List.enumFrom]

end Pitcher
